import Mathlib

/-!
Shallow embedding of the two Python modules `fibonacci.py` and
`pi_simulation.py` of the repository, together with proofs of the
specification's claims about them.

Conventions of the embedding:
* Python arbitrary-precision integers are `ℤ` (inputs `n` are `ℤ`, since a
  caller may pass a negative integer).
* A Python function that may raise becomes a function into `Except PyErr _`.
* The module-level mutable dictionary created by the `cache_for_fib`
  decorator becomes an explicit `Cache` value threaded through
  `fib_by_cache`.
* The ambient state of the `random` module becomes an explicit stream
  `rng : ℕ → ℚ × ℚ` of sample pairs plus a position `k : ℕ`; float values are
  idealised as rationals.  `pi_simulation` neither reads nor advances this
  state, exactly as in the source.
-/

namespace Misc

/-- The Python exceptions that the two modules can raise.  The spec's single
error kind `InvalidArgument` corresponds to `valueError`
(`raise ValueError("n must not be negative.")` and the like). -/
inductive PyErr where
  | valueError
  | zeroDivisionError
  | keyError
  deriving DecidableEq, Repr

/-- Helper for `fib_by_recursive`: the pure recursion
`n if n <= 1 else f(n-1) + f(n-2)`, on the non-negative arguments it is
actually called with. -/
def fibRec : ℕ → ℤ
  | 0 => 0
  | 1 => 1
  | n + 2 => fibRec (n + 1) + fibRec n

/-- Embedding of `fib_by_recursive` (fibonacci.py, lines 10-17). -/
def fib_by_recursive (n : ℤ) : Except PyErr ℤ :=
  if n < 0 then .error .valueError
  else .ok (fibRec n.toNat)

/-- Helper for `fib_by_loop`: state `(a, b)` after `k` iterations of
`a, b = b, a + b` starting from `(0, 1)`. -/
def loopAB : ℕ → ℤ × ℤ
  | 0 => (0, 1)
  | k + 1 => ((loopAB k).2, (loopAB k).1 + (loopAB k).2)

/-- Embedding of `fib_by_loop` (fibonacci.py, lines 23-34): the loop
`for i in range(2, n + 1)` performs `n - 1` iterations. -/
def fib_by_loop (n : ℤ) : Except PyErr ℤ :=
  if n < 0 then .error .valueError
  else if n ≤ 1 then .ok n
  else .ok (loopAB (n.toNat - 1)).2

/-- Helper for `fib_by_dp`: `fibs = [0, 1]`, then
`for i in range(2, n + 1): fibs.append(fibs[i - 1] + fibs[i - 2])`.
Unfolding the loop from its last iteration gives this recursion. -/
def dpList : ℕ → List ℤ
  | 0 => [0, 1]
  | 1 => [0, 1]
  | n + 2 =>
    let fibs := dpList (n + 1)
    fibs ++ [fibs.getD (n + 1) 0 + fibs.getD n 0]

/-- Embedding of `fib_by_dp` (fibonacci.py, lines 39-47). -/
def fib_by_dp (n : ℤ) : Except PyErr (List ℤ) :=
  if n < 0 then .error .valueError
  else .ok (dpList n.toNat)

theorem fibRec_eq_fib : ∀ m : ℕ, fibRec m = (Nat.fib m : ℤ)
  | 0 => rfl
  | 1 => rfl
  | m + 2 => by
    rw [fibRec, Nat.fib_add_two, fibRec_eq_fib (m + 1), fibRec_eq_fib m]
    push_cast
    ring

theorem loopAB_eq_fib (k : ℕ) :
    loopAB k = ((Nat.fib k : ℤ), (Nat.fib (k + 1) : ℤ)) := by
  induction k with
  | zero => rfl
  | succ k ih =>
    rw [loopAB, ih, Nat.fib_add_two]
    push_cast
    ring_nf

theorem dpList_length (m : ℕ) : (dpList m).length = max (m + 1) 2 := by
  induction m with
  | zero => rfl
  | succ m ih =>
    match m with
    | 0 => rfl
    | m + 1 =>
      rw [dpList]
      simp only [List.length_append, List.length_cons, List.length_nil, ih]
      omega

theorem dpList_getD (m : ℕ) :
    ∀ i < (dpList m).length, (dpList m).getD i 0 = (Nat.fib i : ℤ) := by
  induction m with
  | zero =>
    intro i hi
    simp only [dpList, List.length_cons, List.length_nil] at hi
    interval_cases i <;> rfl
  | succ m ih =>
    match m with
    | 0 =>
      intro i hi
      simp only [dpList, List.length_cons, List.length_nil] at hi
      interval_cases i <;> rfl
    | m + 1 =>
      intro i hi
      rw [dpList]
      rw [dpList, List.length_append, List.length_cons, List.length_nil] at hi
      have hlen : (dpList (m + 1)).length = m + 2 := by
        rw [dpList_length]; omega
      rcases Nat.lt_or_ge i (dpList (m + 1)).length with hlt | hge
      · rw [List.getD_append _ _ _ _ hlt]
        exact ih i hlt
      · have hi2 : i = m + 2 := by omega
        subst hi2
        have hconc : (dpList (m + 1) ++
            [(dpList (m + 1)).getD (m + 1) 0 + (dpList (m + 1)).getD m 0]).getD (m + 2) 0
            = (dpList (m + 1)).getD (m + 1) 0 + (dpList (m + 1)).getD m 0 := by
          have := List.getD_append_right (dpList (m + 1))
            [(dpList (m + 1)).getD (m + 1) 0 + (dpList (m + 1)).getD m 0]
            (0 : ℤ) (m + 2) (by omega)
          rw [this, hlen]
          simp
        rw [hconc, ih (m + 1) (by omega), ih m (by omega), Nat.fib_add_two]
        push_cast
        ring

/-- The memoization dictionary of `cache_for_fib` as an association list of
integer keys and values.  Python 2 dictionary semantics used by the code:
membership, indexing, assignment (update an existing key in place, otherwise
add a new entry) and `len`. -/
abbrev Cache := List (ℤ × ℤ)

/-- Dictionary lookup `cache[k]` (`none` models a `KeyError`). -/
def cacheLookup : Cache → ℤ → Option ℤ
  | [], _ => none
  | (k, v) :: c, q => if q = k then some v else cacheLookup c q

/-- Dictionary assignment `cache[k] = v`. -/
def cacheSet : Cache → ℤ → ℤ → Cache
  | [], k, v => [(k, v)]
  | (k₀, v₀) :: c, k, v =>
    if k = k₀ then (k, v) :: c else (k₀, v₀) :: cacheSet c k v

/-- The dictionary `{0: 0, 1: 1}` created once by the `cache_for_fib`
decorator (fibonacci.py, lines 51-57). -/
def cache_for_fib : Cache := [(0, 0), (1, 1)]

/-- The loop `for i in range(len(cache), n + 1): cache[i] = cache[i-1] + cache[i-2]`
of `fib_by_cache`; `i` is the current index, the fuel is the fixed number of
iterations `n + 1 - len(cache)` computed when the loop starts.  A missing
`cache[i-1]` or `cache[i-2]` is a `KeyError`, leaving the updates made so
far in place. -/
def fibFill (c : Cache) (i : ℤ) : ℕ → Cache × Option PyErr
  | 0 => (c, none)
  | fuel + 1 =>
    match cacheLookup c (i - 1), cacheLookup c (i - 2) with
    | some v₁, some v₂ => fibFill (cacheSet c i (v₁ + v₂)) (i + 1) fuel
    | _, _ => (c, some .keyError)

/-- Embedding of `fib_by_cache` (fibonacci.py, lines 63-72): the cache is
passed and returned explicitly (in Python it is the decorator's closure
state, which survives a raised exception). -/
def fib_by_cache (c : Cache) (n : ℤ) : Except PyErr ℤ × Cache :=
  if n < 0 then (.error .valueError, c)
  else
    let filled :=
      if (cacheLookup c n).isSome then (c, none)
      else fibFill c (c.length : ℤ) (n + 1 - (c.length : ℤ)).toNat
    match filled.2 with
    | some e => (.error e, filled.1)
    | none =>
      match cacheLookup filled.1 n with
      | some v => (.ok v, filled.1)
      | none => (.error .keyError, filled.1)

/-- Running a sequence of `fib_by_cache` calls, returning the final cache. -/
def runCalls (c : Cache) : List ℤ → Cache
  | [] => c
  | n :: ns => runCalls (fib_by_cache c n).2 ns

/-- The binary digits of `n`, most significant first (`bin(n)` without the
`0b` prefix). -/
def natBits (n : ℕ) : List Bool :=
  if n ≤ 1 then (if n = 1 then [true] else [])
  else natBits (n / 2) ++ [n % 2 == 1]
termination_by n
decreasing_by exact Nat.div_lt_self (by omega) (by omega)

/-- One iteration of the loop of `fib_by_matrix`: square the implicit matrix
and, when the current binary digit is 1, advance one step. -/
def matStep (s : ℤ × ℤ × ℤ) (bit : Bool) : ℤ × ℤ × ℤ :=
  let a := s.1
  let b := s.2.1
  let c := s.2.2
  let tmp := b ^ 2
  let a₁ := a ^ 2 + tmp
  let b₁ := a * b + b * c
  let c₁ := tmp + c ^ 2
  if bit then (a₁ + b₁, a₁, b₁) else (a₁, b₁, c₁)

/-- Embedding of `fib_by_matrix` (fibonacci.py, lines 80-94): fold `matStep`
over `bin(n)[3:]`, the binary digits of `n` after the leading one, starting
from `(1, 1, 0)`, and return the middle component. -/
def fib_by_matrix (n : ℤ) : Except PyErr ℤ :=
  if n < 0 then .error .valueError
  else if n ≤ 1 then .ok n
  else .ok (((natBits n.toNat).tail.foldl matStep (1, 1, 0)).2.1)

/-- The double loop of `pi_simulation`: for `x` and `y` in `range(n + 1)`,
count the pairs with `x ** 2 + y ** 2 <= n ** 2`. -/
def piCount (n : ℕ) : ℕ :=
  (List.range (n + 1)).foldl
    (fun cnt x =>
      (List.range (n + 1)).foldl
        (fun cnt y => if x ^ 2 + y ^ 2 ≤ n ^ 2 then cnt + 1 else cnt) cnt)
    0

/-- Embedding of `pi_simulation` (pi_simulation.py, lines 16-26).  The
ambient `random`-module state `(rng, k)` is threaded explicitly; this
function reads none of it and returns it unchanged, as in the source.  The
final float division `4 * count / float((n + 1) ** 2)` is idealised over
`ℚ`; its divisor is never zero. -/
def pi_simulation (rng : ℕ → ℚ × ℚ) (k : ℕ) (n : ℤ) : Except PyErr ℚ × ℕ :=
  if n < 0 then (.error .valueError, k)
  else (.ok ((4 * piCount n.toNat : ℚ) / ((n.toNat + 1 : ℚ) ^ 2)), k)

/-- Embedding of `pi_simulation_by_random` (pi_simulation.py, lines 33-42):
iteration `i` of the loop draws the pair `rng (k + i)`, and the call leaves
the stream at position `k + n`.  The final division `4 * count / float(n)`
raises `ZeroDivisionError` when `n = 0`. -/
def pi_simulation_by_random (rng : ℕ → ℚ × ℚ) (k : ℕ) (n : ℤ) :
    Except PyErr ℚ × ℕ :=
  if n < 0 then (.error .valueError, k)
  else
    let count :=
      (List.range n.toNat).foldl
        (fun cnt i =>
          let x := (rng (k + i)).1
          let y := (rng (k + i)).2
          if x ^ 2 + y ^ 2 ≤ 1 then cnt + 1 else cnt)
        (0 : ℕ)
    if n = 0 then (.error .zeroDivisionError, k + n.toNat)
    else (.ok ((4 * count : ℚ) / (n : ℚ)), k + n.toNat)

theorem fib_by_recursive_eq (n : ℤ) (h : 0 ≤ n) :
    fib_by_recursive n = .ok (Nat.fib n.toNat : ℤ) := by
  rw [fib_by_recursive, if_neg (by omega), fibRec_eq_fib]

theorem fib_by_loop_eq (n : ℤ) (h : 0 ≤ n) :
    fib_by_loop n = .ok (Nat.fib n.toNat : ℤ) := by
  rw [fib_by_loop, if_neg (by omega)]
  by_cases h1 : n ≤ 1
  · rw [if_pos h1]
    interval_cases n <;> rfl
  · rw [if_neg h1, loopAB_eq_fib]
    have : n.toNat - 1 + 1 = n.toNat := by omega
    rw [this]

/-- The value of a most-significant-first digit string appended to an
accumulated value. -/
def pushBits (m : ℕ) (bs : List Bool) : ℕ :=
  bs.foldl (fun v b => 2 * v + b.toNat) m

theorem pushBits_append (m : ℕ) (l₁ l₂ : List Bool) :
    pushBits m (l₁ ++ l₂) = pushBits (pushBits m l₁) l₂ :=
  List.foldl_append _ _ _ _

theorem pushBits_cons_false (k : ℕ) (bs : List Bool) :
    pushBits k (false :: bs) = pushBits (2 * k) bs := by
  simp [pushBits]

theorem pushBits_cons_true (k : ℕ) (bs : List Bool) :
    pushBits k (true :: bs) = pushBits (2 * k + 1) bs := by
  simp [pushBits]

theorem pushBits_natBits (n : ℕ) : pushBits 0 (natBits n) = n := by
  induction n using Nat.strong_induction_on with
  | _ n ih =>
    rw [natBits]
    by_cases h : n ≤ 1
    · rw [if_pos h]
      interval_cases n <;> rfl
    · rw [if_neg h, pushBits_append, ih (n / 2) (Nat.div_lt_self (by omega) (by omega))]
      have hb : (n % 2 == 1).toNat = n % 2 := by
        rcases Nat.mod_two_eq_zero_or_one n with h2 | h2 <;> simp [h2]
      simp only [pushBits, List.foldl_cons, List.foldl_nil, hb]
      omega

theorem natBits_head (n : ℕ) (h : 1 ≤ n) : ∃ t, natBits n = true :: t := by
  induction n using Nat.strong_induction_on with
  | _ n ih =>
    rw [natBits]
    by_cases h1 : n ≤ 1
    · rw [if_pos h1]
      have : n = 1 := by omega
      exact ⟨[], by rw [if_pos this]⟩
    · rw [if_neg h1]
      obtain ⟨t, ht⟩ := ih (n / 2) (Nat.div_lt_self (by omega) (by omega)) (by omega)
      exact ⟨t ++ [n % 2 == 1], by rw [ht]; rfl⟩

theorem fibZ_add (m n : ℕ) :
    (Nat.fib (m + n + 1) : ℤ) =
      Nat.fib m * Nat.fib n + Nat.fib (m + 1) * Nat.fib (n + 1) := by
  exact_mod_cast Nat.fib_add m n

theorem fibZ_two_mul_add_three (k : ℕ) :
    (Nat.fib (2 * k + 3) : ℤ) =
      (Nat.fib (k + 2) : ℤ) ^ 2 + (Nat.fib (k + 1) : ℤ) ^ 2 := by
  rw [show 2 * k + 3 = (k + 1) + (k + 1) + 1 from by ring, fibZ_add]
  ring

theorem fibZ_two_mul_add_two (k : ℕ) :
    (Nat.fib (2 * k + 2) : ℤ) =
      (Nat.fib (k + 2) : ℤ) * Nat.fib (k + 1) + (Nat.fib (k + 1) : ℤ) * Nat.fib k := by
  rw [show 2 * k + 2 = k + (k + 1) + 1 from by ring, fibZ_add]
  ring

theorem fibZ_two_mul_add_one (k : ℕ) :
    (Nat.fib (2 * k + 1) : ℤ) =
      (Nat.fib (k + 1) : ℤ) ^ 2 + (Nat.fib k : ℤ) ^ 2 := by
  rw [show 2 * k + 1 = k + k + 1 from by ring, fibZ_add]
  ring

theorem matStep_fib_false (k : ℕ) :
    matStep ((Nat.fib (k + 2) : ℤ), (Nat.fib (k + 1) : ℤ), (Nat.fib k : ℤ)) false =
      ((Nat.fib (2 * k + 1 + 2) : ℤ), (Nat.fib (2 * k + 1 + 1) : ℤ),
       (Nat.fib (2 * k + 1) : ℤ)) := by
  rw [show 2 * k + 1 + 2 = 2 * k + 3 from by ring, show 2 * k + 1 + 1 = 2 * k + 2 from by ring,
    fibZ_two_mul_add_three, fibZ_two_mul_add_two, fibZ_two_mul_add_one]
  simp [matStep]

theorem matStep_fib_true (k : ℕ) :
    matStep ((Nat.fib (k + 2) : ℤ), (Nat.fib (k + 1) : ℤ), (Nat.fib k : ℤ)) true =
      ((Nat.fib (2 * k + 2 + 2) : ℤ), (Nat.fib (2 * k + 2 + 1) : ℤ),
       (Nat.fib (2 * k + 2) : ℤ)) := by
  have h4 : (Nat.fib (2 * k + 2 + 2) : ℤ) =
      (Nat.fib (2 * k + 3) : ℤ) + (Nat.fib (2 * k + 2) : ℤ) := by
    rw [show 2 * k + 2 + 2 = (2 * k + 2) + 2 from by ring, Nat.fib_add_two]
    push_cast
    ring
  rw [show 2 * k + 2 + 1 = 2 * k + 3 from by ring, h4,
    fibZ_two_mul_add_three, fibZ_two_mul_add_two]
  simp [matStep]

theorem matFold : ∀ (bs : List Bool) (k : ℕ),
    bs.foldl matStep ((Nat.fib (k + 2) : ℤ), (Nat.fib (k + 1) : ℤ), (Nat.fib k : ℤ)) =
      ((Nat.fib (pushBits (k + 1) bs + 1) : ℤ), (Nat.fib (pushBits (k + 1) bs) : ℤ),
       (Nat.fib (pushBits (k + 1) bs - 1) : ℤ))
  | [], k => by
    simp only [List.foldl_nil, pushBits, Nat.add_sub_cancel]
  | false :: bs, k => by
    rw [List.foldl_cons, matStep_fib_false, matFold bs (2 * k + 1),
      pushBits_cons_false, show 2 * (k + 1) = 2 * k + 1 + 1 from by ring]
  | true :: bs, k => by
    rw [List.foldl_cons, matStep_fib_true, matFold bs (2 * k + 2),
      pushBits_cons_true, show 2 * (k + 1) + 1 = 2 * k + 2 + 1 from by ring]

theorem fib_by_matrix_eq (n : ℤ) (h : 0 ≤ n) :
    fib_by_matrix n = .ok (Nat.fib n.toNat : ℤ) := by
  rw [fib_by_matrix, if_neg (by omega)]
  by_cases h1 : n ≤ 1
  · rw [if_pos h1]
    interval_cases n <;> rfl
  · rw [if_neg h1]
    obtain ⟨t, ht⟩ := natBits_head n.toNat (by omega)
    have hval : pushBits 1 t = n.toNat := by
      have := pushBits_natBits n.toNat
      rw [ht] at this
      simpa [pushBits] using this
    have hfold := matFold t 0
    rw [ht]
    simp only [List.tail_cons]
    have hstart : ((1 : ℤ), (1 : ℤ), (0 : ℤ)) =
        ((Nat.fib 2 : ℤ), (Nat.fib 1 : ℤ), (Nat.fib 0 : ℤ)) := by decide
    rw [hstart, hfold, hval]

theorem cacheLookup_append_of_isSome {c : Cache} {k : ℤ}
    (h : (cacheLookup c k).isSome) (e : ℤ × ℤ) :
    cacheLookup (c ++ [e]) k = cacheLookup c k := by
  induction c with
  | nil => simp [cacheLookup] at h
  | cons hd tl ih =>
    obtain ⟨k₀, v₀⟩ := hd
    rw [List.cons_append, cacheLookup, cacheLookup]
    by_cases hk : k = k₀
    · rw [if_pos hk, if_pos hk]
    · rw [if_neg hk, if_neg hk]
      rw [cacheLookup, if_neg hk] at h
      exact ih h

theorem cacheLookup_append_of_none {c : Cache} {k : ℤ}
    (h : cacheLookup c k = none) (k₁ v : ℤ) :
    cacheLookup (c ++ [(k₁, v)]) k = if k = k₁ then some v else none := by
  induction c with
  | nil => rfl
  | cons hd tl ih =>
    obtain ⟨k₀, v₀⟩ := hd
    simp only [cacheLookup] at h
    by_cases hk : k = k₀
    · rw [if_pos hk] at h
      exact absurd h (Option.some_ne_none v₀)
    · rw [if_neg hk] at h
      rw [List.cons_append]
      simp only [cacheLookup, if_neg hk]
      exact ih h

theorem cacheSet_fresh {c : Cache} {k : ℤ} (h : cacheLookup c k = none) (v : ℤ) :
    cacheSet c k v = c ++ [(k, v)] := by
  induction c with
  | nil => rfl
  | cons hd tl ih =>
    obtain ⟨k₀, v₀⟩ := hd
    rw [cacheLookup] at h
    by_cases hk : k = k₀
    · rw [if_pos hk] at h
      exact absurd h (Option.some_ne_none v₀)
    · rw [if_neg hk] at h
      rw [cacheSet, if_neg hk, ih h, List.cons_append]

/-- The invariant of the memoization cache: it holds exactly the keys
`0 .. m` for some `m ≥ 1`, each bound to the exact Fibonacci number of its
index, and its `len` is `m + 1`. -/
def goodCache (c : Cache) (m : ℕ) : Prop :=
  1 ≤ m ∧ c.length = m + 1 ∧
    ∀ k : ℤ, cacheLookup c k =
      if 0 ≤ k ∧ k ≤ (m : ℤ) then some (Nat.fib k.toNat : ℤ) else none

theorem goodCache_init : goodCache cache_for_fib 1 := by
  refine ⟨le_refl 1, rfl, fun k => ?_⟩
  by_cases h0 : k = 0
  · subst h0
    decide
  · by_cases h1 : k = 1
    · subst h1
      decide
    · rw [if_neg (by omega)]
      simp [cache_for_fib, cacheLookup, h0, h1]

theorem goodCache_set {c : Cache} {m : ℕ} (h : goodCache c m) :
    cacheSet c ((m : ℤ) + 1) (Nat.fib (m + 1) : ℤ) =
      c ++ [(((m : ℤ) + 1), (Nat.fib (m + 1) : ℤ))] ∧
    goodCache (c ++ [(((m : ℤ) + 1), (Nat.fib (m + 1) : ℤ))]) (m + 1) := by
  obtain ⟨hm, hlen, hlk⟩ := h
  have hfresh : cacheLookup c ((m : ℤ) + 1) = none := by
    rw [hlk, if_neg (by omega)]
  refine ⟨cacheSet_fresh hfresh _, le_trans hm (Nat.le_succ m), ?_, fun k => ?_⟩
  · rw [List.length_append, hlen]
    rfl
  · by_cases hk : 0 ≤ k ∧ k ≤ (m : ℤ)
    · have hsome : (cacheLookup c k).isSome := by
        rw [hlk, if_pos hk]
        rfl
      rw [cacheLookup_append_of_isSome hsome, hlk, if_pos hk, if_pos (by omega)]
    · have hnone : cacheLookup c k = none := by rw [hlk, if_neg hk]
      rw [cacheLookup_append_of_none hnone]
      by_cases hk1 : k = (m : ℤ) + 1
      · rw [if_pos hk1, if_pos (by omega)]
        subst hk1
        rw [show ((m : ℤ) + 1).toNat = m + 1 from by omega]
      · rw [if_neg hk1, if_neg (by omega)]

theorem fibFill_good : ∀ (fuel : ℕ) (c : Cache) (m : ℕ), goodCache c m →
    ∃ c', fibFill c ((m : ℤ) + 1) fuel = (c', none) ∧
      goodCache c' (m + fuel) ∧ c <+: c'
  | 0, c, m, h => ⟨c, rfl, by simpa using h, List.prefix_refl c⟩
  | fuel + 1, c, m, h => by
    obtain ⟨hm, hlen, hlk⟩ := h
    have e1 : cacheLookup c ((m : ℤ) + 1 - 1) = some (Nat.fib m : ℤ) := by
      rw [show (m : ℤ) + 1 - 1 = (m : ℤ) from by ring, hlk, if_pos (by omega),
        show ((m : ℤ)).toNat = m from by omega]
    have e2 : cacheLookup c ((m : ℤ) + 1 - 2) = some (Nat.fib (m - 1) : ℤ) := by
      rw [hlk, if_pos (by omega), show ((m : ℤ) + 1 - 2).toNat = m - 1 from by omega]
    have hv : (Nat.fib m : ℤ) + (Nat.fib (m - 1) : ℤ) = (Nat.fib (m + 1) : ℤ) := by
      obtain ⟨j, rfl⟩ : ∃ j, m = j + 1 := ⟨m - 1, by omega⟩
      rw [Nat.add_sub_cancel, show j + 1 + 1 = j + 2 from rfl, Nat.fib_add_two]
      push_cast
      ring
    obtain ⟨hset, hgood⟩ := goodCache_set ⟨hm, hlen, hlk⟩
    obtain ⟨c', hc', hg', hpre'⟩ := fibFill_good fuel _ (m + 1) hgood
    refine ⟨c', ?_, ?_, ?_⟩
    · rw [fibFill, e1, e2]
      show fibFill (cacheSet c ((m : ℤ) + 1) ((Nat.fib m : ℤ) + (Nat.fib (m - 1) : ℤ)))
        ((m : ℤ) + 1 + 1) fuel = (c', none)
      rw [hv, hset, show (m : ℤ) + 1 + 1 = ((m + 1 : ℕ) : ℤ) + 1 from by push_cast; ring]
      exact hc'
    · rw [show m + (fuel + 1) = m + 1 + fuel from by ring]
      exact hg'
    · exact List.IsPrefix.trans (List.prefix_append c _) hpre'

theorem fib_by_cache_good {c : Cache} {m : ℕ} (h : goodCache c m)
    (n : ℤ) (hn : 0 ≤ n) :
    ∃ c', fib_by_cache c n = (.ok (Nat.fib n.toNat : ℤ), c') ∧
      goodCache c' (max m n.toNat) ∧ c <+: c' := by
  obtain ⟨hm, hlen, hlk⟩ := h
  by_cases hin : n ≤ (m : ℤ)
  · have hsome : cacheLookup c n = some (Nat.fib n.toNat : ℤ) := by
      rw [hlk, if_pos ⟨hn, hin⟩]
    have hmax : max m n.toNat = m := Nat.max_eq_left (by omega)
    refine ⟨c, ?_, by rw [hmax]; exact ⟨hm, hlen, hlk⟩, List.prefix_refl c⟩
    rw [fib_by_cache, if_neg (by omega)]
    simp [hsome]
  · have hnone : cacheLookup c n = none := by
      rw [hlk, if_neg (by omega)]
    obtain ⟨c', hc', hg', hpre'⟩ :=
      fibFill_good (n + 1 - ((m : ℤ) + 1)).toNat c m ⟨hm, hlen, hlk⟩
    have hfuel : m + (n + 1 - ((m : ℤ) + 1)).toNat = n.toNat := by omega
    rw [hfuel] at hg'
    have hmax : max m n.toNat = n.toNat := Nat.max_eq_right (by omega)
    have hlk' : cacheLookup c' n = some (Nat.fib n.toNat : ℤ) := by
      rw [hg'.2.2, if_pos (by omega)]
    refine ⟨c', ?_, by rw [hmax]; exact hg', hpre'⟩
    rw [fib_by_cache, if_neg (by omega)]
    simp only [hnone, Option.isSome_none, Bool.false_eq_true, if_false]
    rw [show (c.length : ℤ) = (m : ℤ) + 1 from by rw [hlen]; push_cast; ring]
    rw [hc']
    simp [hlk']

theorem runCalls_good : ∀ (ns : List ℤ), (∀ x ∈ ns, 0 ≤ x) →
    ∀ (c : Cache) (m : ℕ), goodCache c m →
    ∃ m', m ≤ m' ∧ goodCache (runCalls c ns) m' ∧ c <+: runCalls c ns
  | [], _, c, m, h => ⟨m, le_refl m, h, List.prefix_refl c⟩
  | n :: ns, hns, c, m, h => by
    obtain ⟨c', heq, hg, hpre⟩ := fib_by_cache_good h n (hns n (List.mem_cons_self n ns))
    rw [runCalls, heq]
    obtain ⟨m', hm', hg', hpre'⟩ :=
      runCalls_good ns (fun x hx => hns x (List.mem_cons_of_mem n hx)) c' (max m n.toNat) hg
    exact ⟨m', le_trans (Nat.le_max_left _ _) hm', hg', hpre.trans hpre'⟩

/-- The count named by the spec: the number of integer lattice points
`(x, y)` with `0 ≤ x, y ≤ n` and `x² + y² ≤ n²`. -/
def latticeCount (n : ℕ) : ℕ :=
  (((Finset.range (n + 1)) ×ˢ (Finset.range (n + 1))).filter
    (fun p => p.1 ^ 2 + p.2 ^ 2 ≤ n ^ 2)).card

theorem foldl_count (p : ℕ → Prop) [DecidablePred p] :
    ∀ (l : List ℕ) (a : ℕ),
      l.foldl (fun c y => if p y then c + 1 else c) a =
        a + l.countP (fun y => decide (p y)) := by
  intro l
  induction l with
  | nil => intro a; simp
  | cons hd tl ih =>
    intro a
    rw [List.foldl_cons, List.countP_cons, ih]
    by_cases hp : p hd
    · rw [if_pos hp]
      simp [hp]
      omega
    · rw [if_neg hp]
      simp [hp]

theorem countP_range (p : ℕ → Prop) [DecidablePred p] (m : ℕ) :
    (List.range m).countP (fun y => decide (p y)) =
      ((Finset.range m).filter p).card := by
  induction m with
  | zero => rfl
  | succ m ih =>
    rw [List.range_succ, List.countP_append, Finset.range_succ, Finset.filter_insert, ih]
    by_cases hp : p m
    · rw [if_pos hp, Finset.card_insert_of_not_mem (by simp)]
      simp [hp]
    · rw [if_neg hp]
      simp [hp]

theorem piCount_outer (n : ℕ) :
    ∀ (l : List ℕ) (a : ℕ),
      l.foldl (fun cnt x =>
          (List.range (n + 1)).foldl
            (fun cnt y => if x ^ 2 + y ^ 2 ≤ n ^ 2 then cnt + 1 else cnt) cnt) a =
        a + (l.map (fun x =>
          ((Finset.range (n + 1)).filter (fun y => x ^ 2 + y ^ 2 ≤ n ^ 2)).card)).sum := by
  intro l
  induction l with
  | nil => intro a; simp
  | cons hd tl ih =>
    intro a
    rw [List.foldl_cons, ih, foldl_count (fun y => hd ^ 2 + y ^ 2 ≤ n ^ 2),
      countP_range (fun y => hd ^ 2 + y ^ 2 ≤ n ^ 2)]
    simp
    omega

theorem sum_map_range (f : ℕ → ℕ) (m : ℕ) :
    ((List.range m).map f).sum = ∑ i in Finset.range m, f i := by
  induction m with
  | zero => rfl
  | succ m ih =>
    rw [List.range_succ, List.map_append, List.sum_append, Finset.sum_range_succ, ih]
    simp

theorem piCount_eq_latticeCount (n : ℕ) : piCount n = latticeCount n := by
  rw [piCount, latticeCount, piCount_outer, sum_map_range, Finset.card_filter,
    Finset.sum_product]
  simp only [Nat.zero_add]
  refine Finset.sum_congr rfl (fun x hx => ?_)
  rw [Finset.card_filter]

/-- C1: for every `n` in `[0, 30]`, the five exact Fibonacci variants agree:
`fib_by_recursive`, `fib_by_loop`, `fib_by_dp`'s entry at index `n`,
`fib_by_cache` (from its initial cache) and `fib_by_matrix` all return the
`n`-th Fibonacci number. -/
theorem claim1_fib_variants_agree (n : ℤ) (h0 : 0 ≤ n) (h30 : n ≤ 30) :
    fib_by_recursive n = .ok (Nat.fib n.toNat : ℤ) ∧
    fib_by_loop n = .ok (Nat.fib n.toNat : ℤ) ∧
    (fib_by_dp n).map (fun l => l.getD n.toNat 0) = .ok (Nat.fib n.toNat : ℤ) ∧
    (fib_by_cache cache_for_fib n).1 = .ok (Nat.fib n.toNat : ℤ) ∧
    fib_by_matrix n = .ok (Nat.fib n.toNat : ℤ) := by
  refine ⟨fib_by_recursive_eq n h0, fib_by_loop_eq n h0, ?_, ?_, fib_by_matrix_eq n h0⟩
  · rw [fib_by_dp, if_neg (by omega)]
    have hlt : n.toNat < (dpList n.toNat).length := by
      rw [dpList_length]
      omega
    rw [show Except.map (fun l : List ℤ => l.getD n.toNat 0) (.ok (dpList n.toNat)) =
        .ok ((dpList n.toNat).getD n.toNat 0) from rfl]
    rw [dpList_getD n.toNat n.toNat hlt]
  · obtain ⟨c', heq, _, _⟩ := fib_by_cache_good goodCache_init n h0
    rw [heq]

theorem claim1_witness :
    0 ≤ (10 : ℤ) ∧ (10 : ℤ) ≤ 30 ∧
    (fib_by_recursive 10 = .ok (Nat.fib (10 : ℤ).toNat : ℤ) ∧
     fib_by_loop 10 = .ok (Nat.fib (10 : ℤ).toNat : ℤ) ∧
     (fib_by_dp 10).map (fun l => l.getD (10 : ℤ).toNat 0) = .ok (Nat.fib (10 : ℤ).toNat : ℤ) ∧
     (fib_by_cache cache_for_fib 10).1 = .ok (Nat.fib (10 : ℤ).toNat : ℤ) ∧
     fib_by_matrix 10 = .ok (Nat.fib (10 : ℤ).toNat : ℤ)) :=
  ⟨by decide, by decide, claim1_fib_variants_agree 10 (by decide) (by decide)⟩

/-- C2, counterexample: the claim says `fib_by_dp n` has length `n + 1` for
every non-negative `n`, but at `n = 0` the code returns the seed list
`[0, 1]`, of length `2 ≠ 0 + 1`. -/
theorem claim2_counterexample :
    fib_by_dp 0 = .ok [0, 1] ∧ ([(0 : ℤ), 1].length = 2) ∧ 2 ≠ (0 : ℤ).toNat + 1 :=
  ⟨rfl, rfl, by decide⟩

/-- C2, amended: for every `n ≥ 1`, `fib_by_dp n` returns a list of length
`n + 1` whose index `i` holds the `i`-th Fibonacci number (a strict prefix
of the infinite Fibonacci sequence); at `n = 0` the result is the seed list
`[0, 1]` of length `2`. -/
theorem claim2_dp_sequence (n : ℤ) (h : 1 ≤ n) :
    ∃ l, fib_by_dp n = .ok l ∧ l.length = n.toNat + 1 ∧
      ∀ i < l.length, l.getD i 0 = (Nat.fib i : ℤ) := by
  refine ⟨dpList n.toNat, ?_, ?_, ?_⟩
  · rw [fib_by_dp, if_neg (by omega)]
  · rw [dpList_length]
    omega
  · exact dpList_getD n.toNat

theorem claim2_witness :
    1 ≤ (5 : ℤ) ∧
    ∃ l, fib_by_dp 5 = .ok l ∧ l.length = (5 : ℤ).toNat + 1 ∧
      ∀ i < l.length, l.getD i 0 = (Nat.fib i : ℤ) :=
  ⟨by decide, claim2_dp_sequence 5 (by decide)⟩

/-- C3: the claim that every function raises `InvalidArgument` exactly on
negative `n` and that no other error is ever raised fails on the code:
`pi_simulation_by_random 0` passes the negativity guard and then raises
`ZeroDivisionError` from `4 * count / float(0)`, an error other than
`InvalidArgument` on a non-negative argument. -/
theorem claim3_zero_division :
    (pi_simulation_by_random (fun _ => (0, 0)) 0 0).1 = .error .zeroDivisionError ∧
    ¬ (0 : ℤ) < 0 ∧ PyErr.zeroDivisionError ≠ PyErr.valueError :=
  ⟨rfl, by decide, by decide⟩

/-- C4: the claim that `pi_simulation_by_random` returns a value for every
non-negative `n` fails at `n = 0`: the code raises `ZeroDivisionError`
there, while for every positive `n` it does return a value. -/
theorem claim4_random_zero_fails :
    (pi_simulation_by_random (fun _ => (0, 0)) 5 0).1 = .error .zeroDivisionError ∧
    ∃ q : ℚ, (pi_simulation_by_random (fun _ => (0, 0)) 5 3).1 = .ok q :=
  ⟨rfl, ⟨_, rfl⟩⟩

/-- C5: for every non-negative `n`, `pi_simulation n` returns `4 * count`
divided by `(n + 1) ^ 2`, where `count` is the number of integer lattice
points `(x, y)` with `0 ≤ x, y ≤ n` and `x ^ 2 + y ^ 2 ≤ n ^ 2`. -/
theorem claim5_pi_simulation_value (rng : ℕ → ℚ × ℚ) (k : ℕ) (n : ℤ) (h : 0 ≤ n) :
    (pi_simulation rng k n).1 =
      .ok ((4 * latticeCount n.toNat : ℚ) / ((n.toNat + 1 : ℚ) ^ 2)) := by
  rw [pi_simulation, if_neg (by omega)]
  rw [piCount_eq_latticeCount]

theorem claim5_witness :
    0 ≤ (2 : ℤ) ∧
    (pi_simulation (fun _ => (0, 0)) 0 2).1 =
      .ok ((4 * latticeCount (2 : ℤ).toNat : ℚ) / (((2 : ℤ).toNat + 1 : ℚ) ^ 2)) :=
  ⟨by decide, claim5_pi_simulation_value (fun _ => (0, 0)) 0 2 (by decide)⟩

/-- C6: after any sequence of `fib_by_cache` calls with valid arguments,
the cache holds exactly the keys `0 .. m` for some `m ≥ 1`, each bound to
the exact Fibonacci number of its index; the initial cache is a prefix of
the final one (entries are never removed or changed), and a later call with
any valid `n` (in particular a smaller one) still returns the `n`-th
Fibonacci number. -/
theorem claim6_cache_invariant (ns : List ℤ) (h : ∀ x ∈ ns, 0 ≤ x) :
    ∃ m : ℕ, 1 ≤ m ∧
      (∀ k : ℤ, (cacheLookup (runCalls cache_for_fib ns) k).isSome ↔
        0 ≤ k ∧ k ≤ (m : ℤ)) ∧
      (∀ i : ℕ, i ≤ m →
        cacheLookup (runCalls cache_for_fib ns) (i : ℤ) = some (Nat.fib i : ℤ)) ∧
      cache_for_fib <+: runCalls cache_for_fib ns ∧
      ∀ n : ℤ, 0 ≤ n →
        (fib_by_cache (runCalls cache_for_fib ns) n).1 = .ok (Nat.fib n.toNat : ℤ) := by
  obtain ⟨m, hm1, hg, hpre⟩ := runCalls_good ns h cache_for_fib 1 goodCache_init
  obtain ⟨hm, hlen, hlk⟩ := hg
  refine ⟨m, hm, fun k => ?_, fun i hi => ?_, hpre, fun n hn => ?_⟩
  · rw [hlk]
    by_cases hk : 0 ≤ k ∧ k ≤ (m : ℤ)
    · simp [hk]
    · simp [if_neg hk]
      omega
  · rw [hlk, if_pos (by omega), show ((i : ℤ)).toNat = i from by omega]
  · obtain ⟨c', heq, _, _⟩ := fib_by_cache_good ⟨hm, hlen, hlk⟩ n hn
    rw [heq]

theorem claim6_witness :
    (∀ x ∈ [(5 : ℤ), 2], 0 ≤ x) ∧
    ∃ m : ℕ, 1 ≤ m ∧
      (∀ k : ℤ, (cacheLookup (runCalls cache_for_fib [(5 : ℤ), 2]) k).isSome ↔
        0 ≤ k ∧ k ≤ (m : ℤ)) ∧
      (∀ i : ℕ, i ≤ m →
        cacheLookup (runCalls cache_for_fib [(5 : ℤ), 2]) (i : ℤ) = some (Nat.fib i : ℤ)) ∧
      cache_for_fib <+: runCalls cache_for_fib [(5 : ℤ), 2] ∧
      ∀ n : ℤ, 0 ≤ n →
        (fib_by_cache (runCalls cache_for_fib [(5 : ℤ), 2]) n).1 = .ok (Nat.fib n.toNat : ℤ) :=
  ⟨by decide, claim6_cache_invariant [(5 : ℤ), 2] (by decide)⟩

/-- C7: `pi_simulation` is deterministic: its value on a non-negative `n`
does not depend on the ambient random state, so two calls with the same `n`
produce identical output. -/
theorem claim7_pi_simulation_deterministic (rng₁ rng₂ : ℕ → ℚ × ℚ)
    (k₁ k₂ : ℕ) (n : ℤ) (h : 0 ≤ n) :
    (pi_simulation rng₁ k₁ n).1 = (pi_simulation rng₂ k₂ n).1 := by
  rw [pi_simulation, pi_simulation, if_neg (show ¬ n < 0 from by omega),
    if_neg (show ¬ n < 0 from by omega)]

theorem claim7_witness :
    0 ≤ (4 : ℤ) ∧
    (pi_simulation (fun _ => (0, 0)) 0 4).1 = (pi_simulation (fun i => (1, 1)) 7 4).1 :=
  ⟨by decide, claim7_pi_simulation_deterministic (fun _ => (0, 0)) (fun i => (1, 1)) 0 7 4 (by decide)⟩

/-- C9: `fib_by_dp` returns the seed list `[0, 1]` at `n = 0` and `n = 1`,
and for every non-negative `n` the result has length `max (n + 1) 2`. -/
theorem claim9_dp_seed_and_length (n : ℤ) (h : 0 ≤ n) :
    fib_by_dp 0 = .ok [0, 1] ∧ fib_by_dp 1 = .ok [0, 1] ∧
    ∃ l, fib_by_dp n = .ok l ∧ l.length = max (n.toNat + 1) 2 := by
  refine ⟨rfl, rfl, dpList n.toNat, ?_, dpList_length n.toNat⟩
  rw [fib_by_dp, if_neg (by omega)]

theorem claim9_witness :
    0 ≤ (7 : ℤ) ∧
    (fib_by_dp 0 = .ok [0, 1] ∧ fib_by_dp 1 = .ok [0, 1] ∧
     ∃ l, fib_by_dp 7 = .ok l ∧ l.length = max ((7 : ℤ).toNat + 1) 2) :=
  ⟨by decide, claim9_dp_seed_and_length 7 (by decide)⟩

/-- C10: a `fib_by_cache` call with a negative `n` raises `InvalidArgument`
before touching the memoization cache, so the cache after the failed call
is identical to the cache before it. -/
theorem claim10_cache_unchanged_on_negative (c : Cache) (n : ℤ) (h : n < 0) :
    fib_by_cache c n = (.error .valueError, c) := by
  rw [fib_by_cache, if_pos h]

theorem claim10_witness :
    (-1 : ℤ) < 0 ∧ fib_by_cache cache_for_fib (-1) = (.error .valueError, cache_for_fib) :=
  ⟨by decide, claim10_cache_unchanged_on_negative cache_for_fib (-1) (by decide)⟩

end Misc
